import Mathlib

/-!
Shallow embedding of `src/lab_3/matrix_threads.cpp`.

Matrices are flat row-major lists.  The C++ `double` scalars are modelled
either over an arbitrary type carrying `Add`/`Mul`/`Zero` (no ring laws, so
any equality proved also holds for IEEE doubles executed in the same
operation order) or over `ℚ` where an order is needed (`max_abs_diff`).
Out-of-range reads (`operator[]` past the end) are modelled by `List.getD`
with default `0`; `List.set` past the end is a no-op, matching the fact that
all well-formed runs stay in bounds.  The parallel executor is modelled as
the sequential application of the `T` workers in spawn order: the partition
invariant makes all schedules write-disjoint, and the claims themselves are
phrased over this per-list execution.
-/

/-- A task `(row i, col j)` designating one output cell, from the C++ alias
of `pair<int,int>` (named `CellTask` here because core Lean already has a
type of that name; only non-negative indices ever occur). -/
abbrev CellTask := Nat × Nat

section Core

variable {α : Type} [Add α] [Mul α] [Zero α]

/-- `getA(A, i, k, K) = A[i * K + k]`. -/
def getA (A : List α) (i k K : Nat) : α := A.getD (i * K + k) 0

/-- `getB(B, k, j, N) = B[k * N + j]`. -/
def getB (B : List α) (k j N : Nat) : α := B.getD (k * N + j) 0

/-- `compute_element`: dot product of row `i` of `A` with column `j` of `B`,
`sum += A[i,kk] * B[kk,j]` for `kk = 0, …, K-1` in increasing order, starting
from `0.0`.  `M` and `thread_id` are kept although the value ignores them,
as in the source (`thread_id` only feeds the debug print). -/
def compute_element (A B : List α) (i j M K N : Nat) (thread_id : Nat) : α :=
  (List.range K).foldl (fun sum kk => sum + getA A i kk K * getB B kk j N) 0

/-- `worker`: walks its task list in order and stores
`C[i*N + j] = compute_element(A, B, i, j, …)` for each task `(i, j)`. -/
def worker (thread_id : Nat) (tasks : List CellTask) (A B : List α) (C : List α)
    (M K N : Nat) : List α :=
  tasks.foldl (fun c t => c.set (t.1 * N + t.2) (compute_element A B t.1 t.2 M K N thread_id)) C

/-- `multiply_baseline`: single-threaded product, visiting every `(i, j)` in
row-major order and running the same inner `kk` loop as `compute_element`. -/
def multiply_baseline (A B : List α) (M K N : Nat) : List α :=
  (List.range M).foldl (fun C i =>
    (List.range N).foldl (fun C j =>
      C.set (i * N + j)
        ((List.range K).foldl (fun s kk => s + getA A i kk K * getB B kk j N) 0)) C)
    (List.replicate (M * N) 0)

/-- The spawn-and-join loop of `main`: thread `t` runs `worker` on task list
`t`, for `t = 0, …, T-1`; disjointness of the lists makes the sequential
order faithful to any parallel schedule. -/
def run_parallel (lists : List (List CellTask)) (A B : List α) (C : List α)
    (M K N : Nat) : List α :=
  (List.range lists.length).foldl
    (fun c t => worker t (lists.getD t []) A B c M K N) C

end Core

/-- The chunking loop shared verbatim by `split_by_rows` and `split_by_cols`:
thread `t` receives `base + (t < extra ? 1 : 0)` consecutive linear indices
starting at `start`, mapped to cells by `cellOf`; `rem` counts the remaining
iterations of the `for (t …)` loop. -/
def chunksFrom (cellOf : Nat → CellTask) (base extra : Nat) :
    Nat → Nat → Nat → List (List CellTask)
  | _, _, 0 => []
  | t, start, rem + 1 =>
      ((List.range (base + (if t < extra then 1 else 0))).map
        (fun o => cellOf (start + o))) ::
      chunksFrom cellOf base extra (t + 1)
        (start + (base + (if t < extra then 1 else 0))) rem

/-- `split_by_rows`: row-major linearization `idx ↦ (idx / N, idx % N)`
sliced into `T` consecutive chunks. -/
def split_by_rows (M N T : Nat) : List (List CellTask) :=
  chunksFrom (fun idx => (idx / N, idx % N)) (M * N / T) (M * N % T) 0 0 T

/-- `split_by_cols`: column-major linearization `idx ↦ (i = idx % M, j = idx / M)`
sliced into `T` consecutive chunks. -/
def split_by_cols (M N T : Nat) : List (List CellTask) :=
  chunksFrom (fun idx => (idx % M, idx / M)) (M * N / T) (M * N % T) 0 0 T

/-- `split_every_k`: one pass over the row-major indices, pushing cell
`(idx / N, idx % N)` onto list `idx % num_threads`. -/
def split_every_k (M N T : Nat) : List (List CellTask) :=
  (List.range (M * N)).foldl
    (fun res idx => res.set (idx % T) (res.getD (idx % T) [] ++ [(idx / N, idx % N)]))
    (List.replicate T [])

/-- `enum class Strategy { Rows, Cols, EveryK }`. -/
inductive Strategy
  | Rows
  | Cols
  | EveryK
deriving DecidableEq

/-- `make_tasks`: dispatch on the strategy. -/
def make_tasks (M N T : Nat) (s : Strategy) : List (List CellTask) :=
  match s with
  | .Rows => split_by_rows M N T
  | .Cols => split_by_cols M N T
  | .EveryK => split_every_k M N T

/-- `max_abs_diff`: running maximum of `|X[i] - Y[i]|` over `i < X.size()`,
seeded with `0.0`; doubles modelled as `ℚ`. -/
def max_abs_diff (X Y : List ℚ) : ℚ :=
  (List.range X.length).foldl (fun m i => max m |X.getD i 0 - Y.getD i 0|) 0

/-- The configuration `main` hands to the core after argument handling. -/
structure RunConfig where
  M : Int
  K : Int
  N : Int
  T : Int
  strat : Strategy
  debug : Bool
  random : Bool
deriving DecidableEq

/-- Strategy-name handling of `main`: `"cols"`, `"everyk"` and `"rows"` are
accepted, anything else is a usage failure. -/
def parse_strategy (s : String) : Option Strategy :=
  if s = "cols" then some .Cols
  else if s = "everyk" then some .EveryK
  else if s = "rows" then some .Rows
  else none

/-- Flag handling of `main`: each extra argument must be `--debug` or
`--random`, anything else is a usage failure. -/
def parse_flags : List String → Bool → Bool → Option (Bool × Bool)
  | [], d, r => some (d, r)
  | f :: rest, d, r =>
      if f = "--debug" then parse_flags rest true r
      else if f = "--random" then parse_flags rest d true
      else none

/-- Argument handling of `main` after `stoi`: the strategy name and the flags
are validated, `T` is clamped by `max(1, stoi(argv[4]))`, and `M`, `K`, `N`
are passed through to the core with no validation at all. -/
def main_model (M K N Tin : Int) (sarg : String) (flags : List String) :
    Option RunConfig :=
  match parse_strategy sarg with
  | none => none
  | some st =>
      match parse_flags flags false false with
      | none => none
      | some (d, r) => some ⟨M, K, N, max 1 Tin, st, d, r⟩

/-! ### Index arithmetic helpers -/

lemma lin_div (i j N : Nat) (hj : j < N) : (i * N + j) / N = i := by
  have hN : 0 < N := Nat.lt_of_le_of_lt (Nat.zero_le j) hj
  rw [mul_comm, Nat.mul_add_div hN, Nat.div_eq_of_lt hj, Nat.add_zero]

lemma lin_mod (i j N : Nat) (hj : j < N) : (i * N + j) % N = j := by
  rw [mul_comm, Nat.mul_add_mod, Nat.mod_eq_of_lt hj]

lemma cellR_lin (N p : Nat) : p / N * N + p % N = p := by
  rw [mul_comm]; exact Nat.div_add_mod p N

lemma cellR_injective (N : Nat) :
    Function.Injective (fun p : Nat => ((p / N, p % N) : CellTask)) := by
  intro a b h
  have h1 : a / N = b / N := congrArg Prod.fst h
  have h2 : a % N = b % N := congrArg Prod.snd h
  have ha := cellR_lin N a
  have hb := cellR_lin N b
  rw [h1, h2] at ha
  exact ha.symm.trans hb

lemma cellC_lin (M p : Nat) : p / M * M + p % M = p := by
  rw [mul_comm]; exact Nat.div_add_mod p M

lemma cellC_injective (M : Nat) :
    Function.Injective (fun p : Nat => ((p % M, p / M) : CellTask)) := by
  intro a b h
  have h1 : a % M = b % M := congrArg Prod.fst h
  have h2 : a / M = b / M := congrArg Prod.snd h
  have ha := cellC_lin M a
  have hb := cellC_lin M b
  rw [h2, h1] at ha
  exact ha.symm.trans hb

lemma lin_lt_total {i j M N : Nat} (hi : i < M) (hj : j < N) :
    i * N + j < M * N := by
  calc i * N + j < i * N + N := by omega
    _ = (i + 1) * N := by ring
    _ ≤ M * N := Nat.mul_le_mul_right N hi

/-! ### Write-sequence machinery

A worker is a fold of `List.set` operations whose written value depends only
on the written linear index; `applyWrites` is that normal form. -/

def applyWrites {α : Type} (g : Nat → α) (idxs : List Nat) (C : List α) : List α :=
  idxs.foldl (fun c p => c.set p (g p)) C

lemma applyWrites_nil {α : Type} (g : Nat → α) (C : List α) :
    applyWrites g [] C = C := rfl

lemma applyWrites_cons {α : Type} (g : Nat → α) (q : Nat) (rest : List Nat) (C : List α) :
    applyWrites g (q :: rest) C = applyWrites g rest (C.set q (g q)) := rfl

lemma applyWrites_append {α : Type} (g : Nat → α) (l₁ l₂ : List Nat) (C : List α) :
    applyWrites g (l₁ ++ l₂) C = applyWrites g l₂ (applyWrites g l₁ C) :=
  List.foldl_append _ _ _ _

lemma length_applyWrites {α : Type} (g : Nat → α) (idxs : List Nat) (C : List α) :
    (applyWrites g idxs C).length = C.length := by
  induction idxs generalizing C with
  | nil => rfl
  | cons q rest ih => rw [applyWrites_cons, ih, List.length_set]

lemma applyWrites_getElem? {α : Type} (g : Nat → α) (idxs : List Nat) (C : List α)
    (p : Nat) :
    (applyWrites g idxs C)[p]? =
      if p ∈ idxs ∧ p < C.length then some (g p) else C[p]? := by
  induction idxs generalizing C with
  | nil => simp [applyWrites_nil]
  | cons q rest ih =>
    rw [applyWrites_cons, ih, List.length_set]
    by_cases hmem : p ∈ rest
    · by_cases hlen : p < C.length
      · simp [hmem, hlen]
      · have hnone : C[p]? = none := List.getElem?_eq_none (by omega)
        have hnone' : (C.set q (g q))[p]? = none :=
          List.getElem?_eq_none (by rw [List.length_set]; omega)
        simp [hmem, hlen, hnone, hnone']
    · by_cases hpq : p = q
      · subst hpq
        by_cases hlen : p < C.length
        · simp [hmem, hlen, List.getElem?_set]
        · have hnone : C[p]? = none := List.getElem?_eq_none (by omega)
          simp [hmem, hlen, List.getElem?_set, hnone]
      · have hqp : ¬ q = p := fun h => hpq h.symm
        have : (C.set q (g q))[p]? = C[p]? := by
          rw [List.getElem?_set, if_neg hqp]
        simp [hmem, hpq, this, List.mem_cons]

section CoreLemmas

variable {α : Type} [Add α] [Mul α] [Zero α]

/-- The value stored into a cell, as a function of the linear index alone
(`compute_element` ignores `thread_id` in its result). -/
def elemLin (A B : List α) (M K N : Nat) (p : Nat) : α :=
  compute_element A B (p / N) (p % N) M K N 0

/-- The linear index written by a task. -/
def linIdx (N : Nat) (t : CellTask) : Nat := t.1 * N + t.2

lemma compute_element_eq_elemLin (A B : List α) (M K N : Nat) {i j : Nat}
    (hj : j < N) (tid : Nat) :
    compute_element A B i j M K N tid = elemLin A B M K N (i * N + j) := by
  unfold elemLin compute_element
  rw [lin_div i j N hj, lin_mod i j N hj]

lemma foldl_set_eq_applyWrites {β : Type} (g : Nat → α) (f : β → Nat) (v : β → α)
    (js : List β) (h : ∀ j ∈ js, v j = g (f j)) :
    ∀ C : List α, js.foldl (fun c j => c.set (f j) (v j)) C =
      applyWrites g (js.map f) C := by
  induction js with
  | nil => intro C; rfl
  | cons j rest ih =>
    intro C
    rw [List.foldl_cons, List.map_cons, applyWrites_cons,
      h j (List.mem_cons_self _ _)]
    exact ih (fun x hx => h x (List.mem_cons_of_mem _ hx)) _

lemma worker_eq_applyWrites (tid : Nat) (tasks : List CellTask) (A B C : List α)
    (M K N : Nat) (h : ∀ t ∈ tasks, t.2 < N) :
    worker tid tasks A B C M K N =
      applyWrites (elemLin A B M K N) (tasks.map (linIdx N)) C := by
  unfold worker
  exact foldl_set_eq_applyWrites (elemLin A B M K N) (linIdx N)
    (fun t => compute_element A B t.1 t.2 M K N tid) tasks
    (fun t ht => compute_element_eq_elemLin A B M K N (h t ht) tid) C

lemma foldl_worker_eq_applyWrites (lists : List (List CellTask)) (A B : List α)
    (M K N : Nat) (tidf : Nat → Nat)
    (h : ∀ l ∈ lists, ∀ t ∈ l, t.2 < N) :
    ∀ C : List α,
      (List.range lists.length).foldl
        (fun c t => worker (tidf t) (lists.getD t []) A B c M K N) C =
      applyWrites (elemLin A B M K N)
        ((lists.map (List.map (linIdx N))).flatten) C := by
  induction lists generalizing tidf with
  | nil => intro C; rfl
  | cons l rest ih =>
    intro C
    rw [List.length_cons, List.range_succ_eq_map, List.foldl_cons, List.foldl_map]
    simp only [List.getD_cons_succ, List.getD_cons_zero, Nat.succ_eq_add_one]
    rw [ih (fun t => tidf (t + 1)) (fun l' hl' => h l' (List.mem_cons_of_mem _ hl'))]
    rw [worker_eq_applyWrites (tidf 0) l A B C M K N (h l (List.mem_cons_self _ _))]
    rw [List.map_cons, List.flatten_cons, applyWrites_append]

lemma run_parallel_eq_applyWrites (lists : List (List CellTask)) (A B C : List α)
    (M K N : Nat) (h : ∀ l ∈ lists, ∀ t ∈ l, t.2 < N) :
    run_parallel lists A B C M K N =
      applyWrites (elemLin A B M K N)
        ((lists.map (List.map (linIdx N))).flatten) C := by
  unfold run_parallel
  exact foldl_worker_eq_applyWrites lists A B M K N (fun t => t) h C

lemma baseline_eq_applyWrites (A B : List α) (M K N : Nat) :
    multiply_baseline A B M K N =
      applyWrites (elemLin A B M K N)
        (((List.range M).map (fun i => (List.range N).map (fun j => i * N + j))).flatten)
        (List.replicate (M * N) 0) := by
  unfold multiply_baseline
  have inner : ∀ (i : Nat) (C : List α),
      (List.range N).foldl (fun C j =>
        C.set (i * N + j)
          ((List.range K).foldl (fun s kk => s + getA A i kk K * getB B kk j N) 0)) C =
      applyWrites (elemLin A B M K N) ((List.range N).map (fun j => i * N + j)) C := by
    intro i C
    exact foldl_set_eq_applyWrites (elemLin A B M K N) (fun j => i * N + j)
      (fun j => (List.range K).foldl (fun s kk => s + getA A i kk K * getB B kk j N) 0)
      (List.range N)
      (fun j hj => compute_element_eq_elemLin A B M K N (List.mem_range.mp hj) 0) C
  have outer : ∀ (is : List Nat) (C : List α),
      is.foldl (fun C i =>
        (List.range N).foldl (fun C j =>
          C.set (i * N + j)
            ((List.range K).foldl (fun s kk => s + getA A i kk K * getB B kk j N) 0)) C) C =
      applyWrites (elemLin A B M K N)
        ((is.map (fun i => (List.range N).map (fun j => i * N + j))).flatten) C := by
    intro is
    induction is with
    | nil => intro C; rfl
    | cons i rest ih =>
      intro C
      rw [List.foldl_cons, ih, inner, List.map_cons, List.flatten_cons,
        applyWrites_append]
  exact outer (List.range M) _

end CoreLemmas

/-! ### Chunking lemmas for `split_by_rows` / `split_by_cols` -/

lemma getElem?_range_eq (n k : Nat) :
    (List.range n)[k]? = if k < n then some k else none := by
  by_cases h : k < n
  · rw [List.getElem?_range h, if_pos h]
  · rw [List.getElem?_eq_none (by rw [List.length_range]; omega), if_neg h]

/-- Total number of tasks handed out by `chunksFrom` over `rem` loop
iterations starting at thread index `t`. -/
def csum (base extra : Nat) : Nat → Nat → Nat
  | _, 0 => 0
  | t, rem + 1 => (base + (if t < extra then 1 else 0)) + csum base extra (t + 1) rem

lemma csum_eq (base extra : Nat) :
    ∀ rem t, csum base extra t rem = base * rem + (min (t + rem) extra - min t extra) := by
  intro rem
  induction rem with
  | zero => intro t; simp [csum]
  | succ rem ih =>
    intro t
    rw [csum, ih (t + 1), Nat.mul_succ]
    simp only [Nat.min_def]
    split_ifs <;> omega

lemma chunksFrom_length (f : Nat → CellTask) (base extra : Nat) :
    ∀ rem t start, (chunksFrom f base extra t start rem).length = rem := by
  intro rem
  induction rem with
  | zero => intro t start; rfl
  | succ rem ih => intro t start; rw [chunksFrom, List.length_cons, ih]

lemma chunksFrom_flatten (f : Nat → CellTask) (base extra : Nat) :
    ∀ rem t start, (chunksFrom f base extra t start rem).flatten =
      (List.range' start (csum base extra t rem)).map f := by
  intro rem
  induction rem with
  | zero => intro t start; simp [chunksFrom, csum]
  | succ rem ih =>
    intro t start
    rw [chunksFrom, List.flatten_cons, ih, csum]
    have h1 : (List.range (base + (if t < extra then 1 else 0))).map
        (fun o => f (start + o)) =
        (List.range' start (base + (if t < extra then 1 else 0))).map f := by
      rw [List.range'_eq_map_range, List.map_map]
      rfl
    rw [h1, ← List.map_append]
    have h2 : List.range' start (base + (if t < extra then 1 else 0)) ++
        List.range' (start + (base + (if t < extra then 1 else 0)))
          (csum base extra (t + 1) rem) =
        List.range' start (csum base extra (t + 1) rem +
          (base + (if t < extra then 1 else 0))) := by
      have := List.range'_append start (base + (if t < extra then 1 else 0))
        (csum base extra (t + 1) rem) 1
      simpa using this
    rw [h2, Nat.add_comm (csum base extra (t + 1) rem)]

lemma chunksFrom_map_length (f : Nat → CellTask) (base extra : Nat) :
    ∀ rem t start, (chunksFrom f base extra t start rem).map List.length =
      (List.range' t rem).map (fun s => base + (if s < extra then 1 else 0)) := by
  intro rem
  induction rem with
  | zero => intro t start; rfl
  | succ rem ih =>
    intro t start
    rw [chunksFrom, List.map_cons, ih, List.range'_succ, List.map_cons,
      List.length_map, List.length_range]

lemma csum_total (total T : Nat) (hT : 1 ≤ T) :
    csum (total / T) (total % T) 0 T = total := by
  rw [csum_eq]
  have h1 : total % T < T := Nat.mod_lt _ (by omega)
  have h2 := cellR_lin T total
  omega

lemma split_by_rows_flatten (M N T : Nat) (hT : 1 ≤ T) :
    (split_by_rows M N T).flatten =
      (List.range (M * N)).map (fun idx => ((idx / N, idx % N) : CellTask)) := by
  unfold split_by_rows
  rw [chunksFrom_flatten, csum_total _ _ hT, ← List.range_eq_range']

lemma split_by_cols_flatten (M N T : Nat) (hT : 1 ≤ T) :
    (split_by_cols M N T).flatten =
      (List.range (M * N)).map (fun idx => ((idx % M, idx / M) : CellTask)) := by
  unfold split_by_cols
  rw [chunksFrom_flatten, csum_total _ _ hT, ← List.range_eq_range']

/-! ### Characterization of `split_every_k` -/

lemma split_every_k_eq (M N T : Nat) (hT : 1 ≤ T) :
    split_every_k M N T =
      (List.range T).map (fun t =>
        ((List.range (M * N)).filter (fun idx => idx % T == t)).map
          (fun idx => ((idx / N, idx % N) : CellTask))) := by
  unfold split_every_k
  suffices h : ∀ n, (List.range n).foldl
      (fun res idx => res.set (idx % T) (res.getD (idx % T) [] ++ [(idx / N, idx % N)]))
      (List.replicate T []) =
      (List.range T).map (fun t =>
        ((List.range n).filter (fun idx => idx % T == t)).map
          (fun idx => ((idx / N, idx % N) : CellTask))) by
    exact h (M * N)
  intro n
  induction n with
  | zero =>
    rw [List.range_zero, List.foldl_nil]
    apply List.ext_getElem?
    intro k
    rw [List.getElem?_replicate, List.getElem?_map, getElem?_range_eq]
    by_cases hk : k < T <;> simp [hk]
  | succ n ih =>
    rw [List.range_succ, List.foldl_append, ih, List.foldl_cons, List.foldl_nil]
    have hq : n % T < T := Nat.mod_lt _ (by omega)
    have hgetD : ((List.range T).map (fun t =>
        ((List.range n).filter (fun idx => idx % T == t)).map
          (fun idx => ((idx / N, idx % N) : CellTask)))).getD (n % T) [] =
        ((List.range n).filter (fun idx => idx % T == n % T)).map
          (fun idx => ((idx / N, idx % N) : CellTask)) := by
      rw [List.getD_eq_getElem?_getD, List.getElem?_map, getElem?_range_eq, if_pos hq]
      rfl
    rw [hgetD]
    apply List.ext_getElem?
    intro k
    rw [List.getElem?_set, List.getElem?_map, List.getElem?_map,
      getElem?_range_eq, List.length_map, List.length_range]
    by_cases hk : k < T
    · rw [if_pos hk]
      simp only [Option.map_some']
      by_cases hqk : n % T = k
      · rw [if_pos hqk, if_pos hq]
        subst hqk
        rw [List.filter_append, List.map_append]
        simp [List.filter_singleton]
      · rw [if_neg hqk]
        rw [List.filter_append]
        have hemp : (List.filter (fun idx => idx % T == k) [n]) = [] := by
          simp [List.filter_singleton, hqk]
        rw [hemp, List.append_nil]
    · rw [if_neg hk]
      have hqknot : ¬ n % T = k := by omega
      rw [if_neg hqknot]
      rfl

lemma split_every_k_getD (M N T : Nat) (hT : 1 ≤ T) {t : Nat} (ht : t < T) :
    (split_every_k M N T).getD t [] =
      ((List.range (M * N)).filter (fun idx => idx % T == t)).map
        (fun idx => ((idx / N, idx % N) : CellTask)) := by
  rw [split_every_k_eq M N T hT, List.getD_eq_getElem?_getD, List.getElem?_map,
    getElem?_range_eq, if_pos ht]
  rfl

/-- The number of indices below `n` in residue class `t` modulo `T`: the
round-robin assignment reproduces the `base`/`extra` sizing rule. -/
lemma length_filter_mod (T t : Nat) (hT : 1 ≤ T) (ht : t < T) :
    ∀ n, ((List.range n).filter (fun idx => idx % T == t)).length =
      n / T + (if t < n % T then 1 else 0) := by
  intro n
  induction n with
  | zero => simp
  | succ n ih =>
    rw [List.range_succ, List.filter_append, List.length_append, ih]
    have hT0 : 0 < T := by omega
    have hdm := cellR_lin T n
    have hmlt : n % T < T := Nat.mod_lt _ hT0
    by_cases hA : n % T + 1 = T
    · have e2 : n + 1 = (n / T + 1) * T := by rw [add_mul, one_mul]; omega
      have hdiv : (n + 1) / T = n / T + 1 := by
        rw [e2, Nat.mul_div_cancel _ hT0]
      have hmod : (n + 1) % T = 0 := by
        rw [e2, Nat.mul_mod_left]
      rw [hdiv, hmod, List.filter_singleton]
      by_cases hqk : n % T = t
      · simp only [hqk, beq_self_eq_true, cond_true, List.length_cons,
          List.length_nil]
        split_ifs <;> omega
      · have : (n % T == t) = false := by simp [hqk]
        simp only [this, cond_false, List.length_nil]
        split_ifs <;> omega
    · have e1 : n + 1 = T * (n / T) + (n % T + 1) := by
        have := Nat.div_add_mod n T
        omega
      have hdiv : (n + 1) / T = n / T := by
        rw [e1, Nat.mul_add_div hT0,
          Nat.div_eq_of_lt (show n % T + 1 < T by omega), Nat.add_zero]
      have hmod : (n + 1) % T = n % T + 1 := by
        rw [e1, Nat.mul_add_mod, Nat.mod_eq_of_lt (show n % T + 1 < T by omega)]
      rw [hdiv, hmod, List.filter_singleton]
      by_cases hqk : n % T = t
      · simp only [hqk, beq_self_eq_true, cond_true, List.length_cons,
          List.length_nil]
        split_ifs <;> omega
      · have : (n % T == t) = false := by simp [hqk]
        simp only [this, cond_false, List.length_nil]
        split_ifs <;> omega

/-! ### Counting lemmas: every grid cell appears exactly once -/

lemma count_map_inj {A B : Type} [BEq A] [LawfulBEq A] [BEq B] [LawfulBEq B]
    (f : A → B) (hf : Function.Injective f) (l : List A) (x : A) :
    (l.map f).count (f x) = l.count x := by
  induction l with
  | nil => rfl
  | cons a rest ih =>
    rw [List.map_cons, List.count_cons, List.count_cons, ih]
    congr 1
    by_cases h : a = x
    · subst h; simp
    · have h2 : ¬ f a = f x := fun hh => h (hf hh)
      simp [h, h2]

lemma count_range_eq (n a : Nat) :
    (List.range n).count a = if a < n then 1 else 0 := by
  induction n with
  | zero => simp
  | succ n ih =>
    rw [List.range_succ, List.count_append, ih, List.count_singleton]
    simp only [beq_iff_eq]
    split_ifs <;> omega

lemma count_filter_eq {A : Type} [BEq A] [LawfulBEq A] (p : A → Bool) (l : List A)
    (a : A) : (l.filter p).count a = if p a = true then l.count a else 0 := by
  by_cases h : p a = true
  · rw [if_pos h]
    exact List.count_filter h
  · rw [if_neg h]
    apply List.count_eq_zero.mpr
    intro hmem
    exact h (List.mem_filter.mp hmem).2

lemma sum_map_ite_range (T t0 c : Nat) :
    ((List.range T).map (fun t => if t0 = t then c else 0)).sum =
      if t0 < T then c else 0 := by
  induction T with
  | zero => simp
  | succ T ih =>
    rw [List.range_succ, List.map_append, List.sum_append, ih]
    simp only [List.map_cons, List.map_nil, List.sum_cons, List.sum_nil]
    split_ifs <;> omega

lemma count_flatten_rows (M N T : Nat) (hT : 1 ≤ T) (i j : Nat) :
    ((split_by_rows M N T).flatten.count ((i, j) : CellTask)) =
      if i < M ∧ j < N then 1 else 0 := by
  rw [split_by_rows_flatten M N T hT]
  by_cases hg : i < M ∧ j < N
  · obtain ⟨hi, hj⟩ := hg
    have hcell : ((i, j) : CellTask) =
        (fun p : Nat => ((p / N, p % N) : CellTask)) (i * N + j) := by
      simp only [lin_div i j N hj, lin_mod i j N hj]
    rw [if_pos ⟨hi, hj⟩, hcell,
      count_map_inj _ (cellR_injective N) (List.range (M * N)) (i * N + j),
      count_range_eq, if_pos (lin_lt_total hi hj)]
  · rw [if_neg hg]
    apply List.count_eq_zero.mpr
    intro hmem
    obtain ⟨idx, hidx, heq⟩ := List.mem_map.mp hmem
    have hlt : idx < M * N := List.mem_range.mp hidx
    have hN : 0 < N := by
      rcases Nat.eq_zero_or_pos N with h0 | h0
      · rw [h0, Nat.mul_zero] at hlt; omega
      · exact h0
    have hi : idx / N < M := (Nat.div_lt_iff_lt_mul hN).mpr hlt
    have hj : idx % N < N := Nat.mod_lt _ hN
    apply hg
    have h1 : idx / N = i := congrArg Prod.fst heq
    have h2 : idx % N = j := congrArg Prod.snd heq
    omega

lemma count_flatten_cols (M N T : Nat) (hT : 1 ≤ T) (i j : Nat) :
    ((split_by_cols M N T).flatten.count ((i, j) : CellTask)) =
      if i < M ∧ j < N then 1 else 0 := by
  rw [split_by_cols_flatten M N T hT]
  by_cases hg : i < M ∧ j < N
  · obtain ⟨hi, hj⟩ := hg
    have hcell : ((i, j) : CellTask) =
        (fun p : Nat => ((p % M, p / M) : CellTask)) (j * M + i) := by
      simp only [lin_div j i M hi, lin_mod j i M hi]
    have hlt : j * M + i < M * N := by
      have h := lin_lt_total hj hi
      rwa [Nat.mul_comm N M] at h
    rw [if_pos ⟨hi, hj⟩, hcell,
      count_map_inj _ (cellC_injective M) (List.range (M * N)) (j * M + i),
      count_range_eq, if_pos hlt]
  · rw [if_neg hg]
    apply List.count_eq_zero.mpr
    intro hmem
    obtain ⟨idx, hidx, heq⟩ := List.mem_map.mp hmem
    have hlt : idx < M * N := List.mem_range.mp hidx
    have hM : 0 < M := by
      rcases Nat.eq_zero_or_pos M with h0 | h0
      · rw [h0, Nat.zero_mul] at hlt; omega
      · exact h0
    have hi : idx % M < M := Nat.mod_lt _ hM
    have hj : idx / M < N := by
      rw [Nat.div_lt_iff_lt_mul hM, Nat.mul_comm N M]
      exact hlt
    apply hg
    have h1 : idx % M = i := congrArg Prod.fst heq
    have h2 : idx / M = j := congrArg Prod.snd heq
    omega

lemma count_flatten_everyk (M N T : Nat) (hT : 1 ≤ T) (i j : Nat) :
    ((split_every_k M N T).flatten.count ((i, j) : CellTask)) =
      if i < M ∧ j < N then 1 else 0 := by
  rw [split_every_k_eq M N T hT, List.count_flatten, List.map_map]
  by_cases hg : i < M ∧ j < N
  · obtain ⟨hi, hj⟩ := hg
    have hcell : ((i, j) : CellTask) =
        (fun p : Nat => ((p / N, p % N) : CellTask)) (i * N + j) := by
      simp only [lin_div i j N hj, lin_mod i j N hj]
    have hlt : i * N + j < M * N := lin_lt_total hi hj
    have hper : ∀ t ∈ List.range T,
        (List.count ((i, j) : CellTask) ∘ fun t =>
          ((List.range (M * N)).filter (fun idx => idx % T == t)).map
            (fun idx => ((idx / N, idx % N) : CellTask))) t =
        (fun t => if (i * N + j) % T = t then 1 else 0) t := by
      intro t _
      simp only [Function.comp]
      rw [hcell, count_map_inj _ (cellR_injective N) _ (i * N + j),
        count_filter_eq, count_range_eq, if_pos hlt]
      simp only [beq_iff_eq]
    rw [List.map_congr_left hper, sum_map_ite_range,
      if_pos (Nat.mod_lt _ (show 0 < T by omega)), if_pos ⟨hi, hj⟩]
  · rw [if_neg hg]
    have hper : ∀ t ∈ List.range T,
        (List.count ((i, j) : CellTask) ∘ fun t =>
          ((List.range (M * N)).filter (fun idx => idx % T == t)).map
            (fun idx => ((idx / N, idx % N) : CellTask))) t =
        (fun _ => (0 : Nat)) t := by
      intro t _
      simp only [Function.comp]
      apply List.count_eq_zero.mpr
      intro hmem
      obtain ⟨idx, hidx, heq⟩ := List.mem_map.mp hmem
      have hlt : idx < M * N := List.mem_range.mp (List.mem_filter.mp hidx).1
      have hN : 0 < N := by
        rcases Nat.eq_zero_or_pos N with h0 | h0
        · rw [h0, Nat.mul_zero] at hlt; omega
        · exact h0
      apply hg
      have h1 : idx / N = i := congrArg Prod.fst heq
      have h2 : idx % N = j := congrArg Prod.snd heq
      have hdi : idx / N < M := (Nat.div_lt_iff_lt_mul hN).mpr hlt
      have hdj : idx % N < N := Nat.mod_lt _ hN
      omega
    rw [List.map_congr_left hper]
    simp

lemma count_flatten_make_tasks (M N T : Nat) (hT : 1 ≤ T) (s : Strategy)
    (i j : Nat) :
    ((make_tasks M N T s).flatten.count ((i, j) : CellTask)) =
      if i < M ∧ j < N then 1 else 0 := by
  cases s with
  | Rows => exact count_flatten_rows M N T hT i j
  | Cols => exact count_flatten_cols M N T hT i j
  | EveryK => exact count_flatten_everyk M N T hT i j

/-! ### Membership consequences of the counting lemmas -/

lemma mem_flatten_grid (M N T : Nat) (hT : 1 ≤ T) (s : Strategy) :
    ∀ t ∈ (make_tasks M N T s).flatten, t.1 < M ∧ t.2 < N := by
  intro t htmem
  by_contra hng
  have hc := count_flatten_make_tasks M N T hT s t.1 t.2
  rw [if_neg hng] at hc
  exact List.count_eq_zero.mp hc (by simpa using htmem)

lemma mem_flatten_of_grid (M N T : Nat) (hT : 1 ≤ T) (s : Strategy) {i j : Nat}
    (hi : i < M) (hj : j < N) :
    ((i, j) : CellTask) ∈ (make_tasks M N T s).flatten := by
  have hc := count_flatten_make_tasks M N T hT s i j
  rw [if_pos ⟨hi, hj⟩] at hc
  by_contra hno
  rw [List.count_eq_zero.mpr hno] at hc
  omega

lemma mem_lin_flatten (M N T : Nat) (hT : 1 ≤ T) (s : Strategy) (p : Nat) :
    p ∈ ((make_tasks M N T s).flatten.map (linIdx N)) ↔ p < M * N := by
  constructor
  · intro hp
    obtain ⟨t, htmem, hlin⟩ := List.mem_map.mp hp
    obtain ⟨hi, hj⟩ := mem_flatten_grid M N T hT s t htmem
    rw [← hlin]
    exact lin_lt_total hi hj
  · intro hp
    have hN : 0 < N := by
      rcases Nat.eq_zero_or_pos N with h0 | h0
      · rw [h0, Nat.mul_zero] at hp; omega
      · exact h0
    have hi : p / N < M := (Nat.div_lt_iff_lt_mul hN).mpr hp
    have hj : p % N < N := Nat.mod_lt _ hN
    exact List.mem_map.mpr
      ⟨(p / N, p % N), mem_flatten_of_grid M N T hT s hi hj,
        by simpa [linIdx] using cellR_lin N p⟩

/-! ### Claim C1 -/

/-- C1: for every well-formed `A` (`M*K` values) and `B` (`K*N` values),
every strategy and every `T ≥ 1`, executing `worker` on each of the `T` task
lists produced by `make_tasks` over a zero-initialized `C` of `M*N` values
yields exactly `multiply_baseline A B M K N`.  Proved over any carrier with
`+`, `*` and `0` and no algebraic laws, so each cell's value is produced by
the identical sequence of operations (identical summation order) as in the
baseline — the equality in particular holds for IEEE doubles. -/
theorem C1_parallel_equals_baseline {α : Type} [Add α] [Mul α] [Zero α]
    (A B : List α) (M K N T : Nat) (s : Strategy)
    (hA : A.length = M * K) (hB : B.length = K * N) (hT : 1 ≤ T) :
    run_parallel (make_tasks M N T s) A B (List.replicate (M * N) 0) M K N =
      multiply_baseline A B M K N := by
  have hgrid := mem_flatten_grid M N T hT s
  have hcond : ∀ l ∈ make_tasks M N T s, ∀ t ∈ l, t.2 < N := by
    intro l hl t ht
    exact (hgrid t (List.mem_flatten.mpr ⟨l, hl, ht⟩)).2
  rw [run_parallel_eq_applyWrites _ A B _ M K N hcond,
    baseline_eq_applyWrites A B M K N]
  apply List.ext_getElem?
  intro p
  rw [applyWrites_getElem?, applyWrites_getElem?]
  have hm1 : (p ∈ ((make_tasks M N T s).map (List.map (linIdx N))).flatten) ↔
      p < M * N := by
    rw [← List.map_flatten]
    exact mem_lin_flatten M N T hT s p
  have hm2 : (p ∈ ((List.range M).map
      (fun i => (List.range N).map (fun j => i * N + j))).flatten) ↔
      p < M * N := by
    constructor
    · intro hp
      obtain ⟨l, hl, hpl⟩ := List.mem_flatten.mp hp
      obtain ⟨i, hi, rfl⟩ := List.mem_map.mp hl
      obtain ⟨j, hj, rfl⟩ := List.mem_map.mp hpl
      exact lin_lt_total (List.mem_range.mp hi) (List.mem_range.mp hj)
    · intro hp
      have hN : 0 < N := by
        rcases Nat.eq_zero_or_pos N with h0 | h0
        · rw [h0, Nat.mul_zero] at hp; omega
        · exact h0
      have hi : p / N < M := (Nat.div_lt_iff_lt_mul hN).mpr hp
      have hj : p % N < N := Nat.mod_lt _ hN
      apply List.mem_flatten.mpr
      refine ⟨(List.range N).map (fun j => p / N * N + j),
        List.mem_map.mpr ⟨p / N, List.mem_range.mpr hi, rfl⟩, ?_⟩
      exact List.mem_map.mpr ⟨p % N, List.mem_range.mpr hj, cellR_lin N p⟩
  simp only [List.length_replicate]
  by_cases hp : p < M * N
  · rw [if_pos ⟨hm1.mpr hp, hp⟩, if_pos ⟨hm2.mpr hp, hp⟩]
  · rw [if_neg (fun h => hp h.2), if_neg (fun h => hp h.2)]

/-- Witness for C1 at the spec's own example: `M = K = N = 2`,
`A = B = [1,2,3,4]`, `T = 2`, rows strategy. -/
theorem C1_witness :
    run_parallel (make_tasks 2 2 2 Strategy.Rows) [(1 : ℚ), 2, 3, 4]
        [(1 : ℚ), 2, 3, 4] (List.replicate (2 * 2) 0) 2 2 2 =
      multiply_baseline [(1 : ℚ), 2, 3, 4] [(1 : ℚ), 2, 3, 4] 2 2 2 :=
  C1_parallel_equals_baseline [(1 : ℚ), 2, 3, 4] [(1 : ℚ), 2, 3, 4] 2 2 2 2
    Strategy.Rows rfl rfl (by omega)

/-! ### Claim C2 -/

lemma make_tasks_length (M N T : Nat) (hT : 1 ≤ T) (s : Strategy) :
    (make_tasks M N T s).length = T := by
  cases s with
  | Rows => exact chunksFrom_length _ _ _ T 0 0
  | Cols => exact chunksFrom_length _ _ _ T 0 0
  | EveryK =>
    show (split_every_k M N T).length = T
    rw [split_every_k_eq M N T hT, List.length_map, List.length_range]

/-- C2: for every `M, N ≥ 0` and `T ≥ 1`, each strategy returns exactly `T`
task lists, and each cell `(i, j)` of the `M×N` grid occurs exactly once
across all lists together (count 1), while any pair outside the grid occurs
not at all (count 0): no duplicates, no omissions. -/
theorem C2_partition_complete (M N T i j : Nat) (hT : 1 ≤ T) (s : Strategy) :
    (make_tasks M N T s).length = T ∧
    ((make_tasks M N T s).flatten.count ((i, j) : CellTask)) =
      (if i < M ∧ j < N then 1 else 0) :=
  ⟨make_tasks_length M N T hT s, count_flatten_make_tasks M N T hT s i j⟩

/-- Witness for C2 at `M = N = 3`, `T = 2`, cell `(1, 2)`, EveryK. -/
theorem C2_witness :
    (make_tasks 3 3 2 Strategy.EveryK).length = 2 ∧
    ((make_tasks 3 3 2 Strategy.EveryK).flatten.count ((1, 2) : CellTask)) =
      (if 1 < 3 ∧ 2 < 3 then 1 else 0) :=
  C2_partition_complete 3 3 2 1 2 (by omega) Strategy.EveryK

/-! ### Claim C3 -/

lemma make_tasks_map_length (M N T : Nat) (hT : 1 ≤ T) (s : Strategy) :
    (make_tasks M N T s).map List.length =
      (List.range T).map (fun t => M * N / T + (if t < M * N % T then 1 else 0)) := by
  cases s with
  | Rows =>
    show (split_by_rows M N T).map List.length = _
    unfold split_by_rows
    rw [chunksFrom_map_length, ← List.range_eq_range']
  | Cols =>
    show (split_by_cols M N T).map List.length = _
    unfold split_by_cols
    rw [chunksFrom_map_length, ← List.range_eq_range']
  | EveryK =>
    show (split_every_k M N T).map List.length = _
    rw [split_every_k_eq M N T hT, List.map_map]
    apply List.map_congr_left
    intro t ht
    simp only [Function.comp]
    rw [List.length_map, length_filter_mod T t hT (List.mem_range.mp ht)]

lemma make_tasks_getD_length (M N T : Nat) (hT : 1 ≤ T) (s : Strategy) {t : Nat}
    (ht : t < T) :
    ((make_tasks M N T s).getD t []).length =
      M * N / T + (if t < M * N % T then 1 else 0) := by
  have hmap := make_tasks_map_length M N T hT s
  have hlen := make_tasks_length M N T hT s
  have h1 : ((make_tasks M N T s).map List.length)[t]? =
      some (M * N / T + (if t < M * N % T then 1 else 0)) := by
    rw [hmap, List.getElem?_map, List.getElem?_range ht]
    rfl
  rw [List.getElem?_map] at h1
  rcases hl : (make_tasks M N T s)[t]? with _ | l
  · rw [hl] at h1
    simp at h1
  · rw [hl] at h1
    simp only [Option.map_some'] at h1
    rw [List.getD_eq_getElem?_getD, hl]
    simpa using h1

/-- C3: for every `M, N ≥ 0` and `T ≥ 1`, with `base = M*N / T` and
`extra = M*N % T`, under each strategy task list `t` has size `base + 1` when
`t < extra` and size `base` otherwise (also for `split_every_k`, whose
round-robin construction reproduces the same sizing); consequently any two
task lists differ in size by at most 1. -/
theorem C3_load_balance (M N T : Nat) (hT : 1 ≤ T) (s : Strategy) (t : Nat)
    (ht : t < T) :
    ((make_tasks M N T s).getD t []).length =
      M * N / T + (if t < M * N % T then 1 else 0) ∧
    ∀ l1 ∈ make_tasks M N T s, ∀ l2 ∈ make_tasks M N T s,
      l1.length ≤ l2.length + 1 := by
  refine ⟨make_tasks_getD_length M N T hT s ht, ?_⟩
  have hsize : ∀ l ∈ make_tasks M N T s,
      l.length = M * N / T ∨ l.length = M * N / T + 1 := by
    intro l hl
    obtain ⟨n, hn, hget⟩ := List.mem_iff_getElem.mp hl
    have hnT : n < T := by
      rw [make_tasks_length M N T hT s] at hn
      exact hn
    have := make_tasks_getD_length M N T hT s hnT
    rw [List.getD_eq_getElem?_getD, List.getElem?_eq_getElem hn, hget] at this
    simp only [Option.getD_some] at this
    rw [this]
    split_ifs <;> omega
  intro l1 h1 l2 h2
  rcases hsize l1 h1 with e1 | e1 <;> rcases hsize l2 h2 with e2 | e2 <;> omega

/-- Witness for C3 at `M = N = 3`, `T = 2`, list `t = 0` (9 cells over 2
lists: sizes 5 and 4). -/
theorem C3_witness :
    ((make_tasks 3 3 2 Strategy.Rows).getD 0 []).length =
      3 * 3 / 2 + (if 0 < 3 * 3 % 2 then 1 else 0) ∧
    ∀ l1 ∈ make_tasks 3 3 2 Strategy.Rows, ∀ l2 ∈ make_tasks 3 3 2 Strategy.Rows,
      l1.length ≤ l2.length + 1 :=
  C3_load_balance 3 3 2 (by omega) Strategy.Rows 0 (by omega)

/-! ### Claim C4 -/

/-- C4: under the EveryK strategy the cell of row-major index `idx`, namely
`(idx / N, idx % N)`, is placed in task list `idx % T`, and every task list
holds its cells in strictly increasing row-major index order. -/
theorem C4_everyk_round_robin (M N T idx t : Nat) (hT : 1 ≤ T)
    (hidx : idx < M * N) (ht : t < T) :
    ((idx / N, idx % N) : CellTask) ∈ (split_every_k M N T).getD (idx % T) [] ∧
    ((split_every_k M N T).getD t []).Pairwise
      (fun a b => a.1 * N + a.2 < b.1 * N + b.2) := by
  constructor
  · rw [split_every_k_getD M N T hT (Nat.mod_lt _ (show 0 < T by omega))]
    apply List.mem_map.mpr
    refine ⟨idx, ?_, rfl⟩
    rw [List.mem_filter]
    exact ⟨List.mem_range.mpr hidx, by simp⟩
  · rw [split_every_k_getD M N T hT ht]
    apply List.Pairwise.map _ _
      (((List.pairwise_lt_range (M * N)).filter _))
    intro a b hab
    show a / N * N + a % N < b / N * N + b % N
    rw [cellR_lin, cellR_lin]
    exact hab

/-- Witness for C4 at `M = N = 3`, `T = 2`, `idx = 4`, list `t = 1`. -/
theorem C4_witness :
    ((4 / 3, 4 % 3) : CellTask) ∈ (split_every_k 3 3 2).getD (4 % 2) [] ∧
    ((split_every_k 3 3 2).getD 1 []).Pairwise
      (fun a b => a.1 * 3 + a.2 < b.1 * 3 + b.2) :=
  C4_everyk_round_robin 3 3 2 4 1 (by omega) (by omega) (by omega)

/-! ### Claim C5 -/

lemma foldl_add_eq_sum (f : Nat → ℚ) (K : Nat) :
    (List.range K).foldl (fun s kk => s + f kk) 0 = ∑ kk ∈ Finset.range K, f kk := by
  induction K with
  | zero => simp
  | succ K ih =>
    rw [List.range_succ, List.foldl_append, List.foldl_cons, List.foldl_nil, ih,
      Finset.sum_range_succ]

/-- C5: `compute_element A B i j M K N tid` is the left fold, in increasing
`kk` order starting from `0`, of `A[i*K+kk] * B[kk*N+j]` (first conjunct,
over any carrier, capturing the exact operation order); over `ℚ` it equals
the sum over `kk ∈ [0, K)` of `A[i*K+kk] * B[kk*N+j]` (second conjunct), and
`K = 0` yields `0` (third conjunct).  The function is pure: in this
embedding it returns a value and cannot modify `A`, `B` or anything else. -/
theorem C5_compute_element_dot_product :
    (∀ (α : Type) [Add α] [Mul α] [Zero α] (A B : List α) (i j M K N tid : Nat),
      compute_element A B i j M K N tid =
        ((List.range K).map (fun kk => getA A i kk K * getB B kk j N)).foldl
          (· + ·) 0) ∧
    (∀ (A B : List ℚ) (i j M K N tid : Nat),
      compute_element A B i j M K N tid =
        ∑ kk ∈ Finset.range K, getA A i kk K * getB B kk j N) ∧
    (∀ (A B : List ℚ) (i j M N tid : Nat),
      compute_element A B i j M 0 N tid = 0) := by
  refine ⟨?_, ?_, ?_⟩
  · intro α _ _ _ A B i j M K N tid
    rw [List.foldl_map]
    rfl
  · intro A B i j M K N tid
    exact foldl_add_eq_sum (fun kk => getA A i kk K * getB B kk j N) K
  · intro A B i j M N tid
    rfl

/-! ### Claims C6 and C10 -/

lemma le_foldl_max (l : List ℚ) (a : ℚ) : a ≤ l.foldl max a := by
  induction l generalizing a with
  | nil => exact le_refl a
  | cons b rest ih =>
    rw [List.foldl_cons]
    exact le_trans (le_max_left a b) (ih (max a b))

lemma mem_le_foldl_max (l : List ℚ) : ∀ (a : ℚ) {x : ℚ}, x ∈ l → x ≤ l.foldl max a := by
  induction l with
  | nil => intro a x hx; exact absurd hx (List.not_mem_nil x)
  | cons b rest ih =>
    intro a x hx
    rw [List.foldl_cons]
    rcases List.mem_cons.mp hx with h | h
    · subst h
      exact le_trans (le_max_right a x) (le_foldl_max rest (max a x))
    · exact ih (max a b) h

lemma foldl_max_mem (l : List ℚ) (a : ℚ) : l.foldl max a = a ∨ l.foldl max a ∈ l := by
  induction l generalizing a with
  | nil => exact Or.inl rfl
  | cons b rest ih =>
    rw [List.foldl_cons]
    rcases ih (max a b) with h | h
    · rcases max_choice a b with hab | hab
      · exact Or.inl (h.trans hab)
      · exact Or.inr (by rw [h.trans hab]; exact List.mem_cons_self b rest)
    · exact Or.inr (List.mem_cons_of_mem b h)

lemma max_abs_diff_eq_foldl (X Y : List ℚ) :
    max_abs_diff X Y =
      ((List.range X.length).map (fun i => |X.getD i 0 - Y.getD i 0|)).foldl max 0 := by
  unfold max_abs_diff
  rw [List.foldl_map]

/-- C6: for equal-dimension `M×N` inputs (and a nonempty grid, so that "the
maximum" exists), `max_abs_diff X Y` is the maximum over all linear indices
`i < M*N` of `|X[i] - Y[i]|`: it is attained at some index and bounds every
index. -/
theorem C6_max_abs_diff_is_max (X Y : List ℚ) (M N : Nat)
    (hX : X.length = M * N) (hY : Y.length = M * N) (hMN : 0 < M * N) :
    (∃ i, i < M * N ∧ max_abs_diff X Y = |X.getD i 0 - Y.getD i 0|) ∧
    (∀ i, i < M * N → |X.getD i 0 - Y.getD i 0| ≤ max_abs_diff X Y) := by
  rw [max_abs_diff_eq_foldl, hX]
  constructor
  · rcases foldl_max_mem
        ((List.range (M * N)).map (fun i => |X.getD i 0 - Y.getD i 0|)) 0 with h | h
    · refine ⟨0, hMN, ?_⟩
      have hmem : |X.getD 0 0 - Y.getD 0 0| ∈
          (List.range (M * N)).map (fun i => |X.getD i 0 - Y.getD i 0|) :=
        List.mem_map.mpr ⟨0, List.mem_range.mpr hMN, rfl⟩
      have hle := mem_le_foldl_max _ 0 hmem
      rw [h] at hle ⊢
      exact (le_antisymm hle (abs_nonneg _)).symm
    · obtain ⟨i, hi, heq⟩ := List.mem_map.mp h
      exact ⟨i, List.mem_range.mp hi, heq.symm⟩
  · intro i hi
    exact mem_le_foldl_max _ 0 (List.mem_map.mpr ⟨i, List.mem_range.mpr hi, rfl⟩)

/-- Witness for C6 at `X = [1, 5]`, `Y = [2, 3]`, `M = 1`, `N = 2`. -/
theorem C6_witness :
    (∃ i, i < 1 * 2 ∧ max_abs_diff [(1 : ℚ), 5] [2, 3] =
      |([(1 : ℚ), 5].getD i 0) - ([(2 : ℚ), 3].getD i 0)|) ∧
    (∀ i, i < 1 * 2 → |([(1 : ℚ), 5].getD i 0) - ([(2 : ℚ), 3].getD i 0)| ≤
      max_abs_diff [(1 : ℚ), 5] [2, 3]) :=
  C6_max_abs_diff_is_max [(1 : ℚ), 5] [(2 : ℚ), 3] 1 2 rfl rfl (by omega)

/-- C10: `max_abs_diff` is always non-negative, and on an empty first vector
it returns exactly `0`, the seed of the running maximum. -/
theorem C10_max_abs_diff_nonneg :
    (∀ X Y : List ℚ, 0 ≤ max_abs_diff X Y) ∧
    (∀ Y : List ℚ, max_abs_diff [] Y = 0) := by
  constructor
  · intro X Y
    rw [max_abs_diff_eq_foldl]
    exact le_foldl_max _ 0
  · intro Y
    rfl

/-! ### Claim C7 -/

lemma countP_range_not_lt (T c : Nat) :
    ((List.range T).countP (fun t => c ≤ t)) = T - c := by
  induction T with
  | zero => simp
  | succ T ih =>
    rw [List.range_succ, List.countP_append, ih, List.countP_cons, List.countP_nil]
    by_cases h : c ≤ T
    · rw [if_pos (by simpa using h)]
      omega
    · rw [if_neg (by simpa using h)]
      omega

/-- C7: when `T > M*N`, every strategy produces exactly `T - M*N` empty task
lists (in particular at least one), and `worker` on an empty task list is a
no-op returning `C` unchanged. -/
theorem C7_empty_list_tolerance (M N T : Nat) (hlt : M * N < T) :
    (∀ s, ((make_tasks M N T s).countP (fun l => l.isEmpty)) = T - M * N) ∧
    (∀ s, ∃ l ∈ make_tasks M N T s, l = []) ∧
    (∀ (α : Type) [Add α] [Mul α] [Zero α] (tid : Nat) (A B C : List α)
      (M' K' N' : Nat), worker tid [] A B C M' K' N' = C) := by
  have hT : 1 ≤ T := by omega
  have hdiv : M * N / T = 0 := Nat.div_eq_of_lt hlt
  have hmod : M * N % T = M * N := Nat.mod_eq_of_lt hlt
  refine ⟨?_, ?_, ?_⟩
  · intro s
    have hcount : ((make_tasks M N T s).countP (fun l => l.isEmpty)) =
        ((make_tasks M N T s).map List.length).countP (fun n => n == 0) := by
      rw [List.countP_map]
      apply List.countP_congr
      intro l _
      simp [List.isEmpty_iff, List.length_eq_zero, Function.comp]
    rw [hcount, make_tasks_map_length M N T hT s, List.countP_map]
    have hsame : ∀ t ∈ List.range T,
        (((fun n => n == 0) ∘
          (fun t => M * N / T + (if t < M * N % T then 1 else 0))) t = true ↔
        (fun t => decide (M * N ≤ t)) t = true) := by
      intro t _
      rcases Nat.lt_or_ge t (M * N) with h | h
      · have hn : ¬ M * N ≤ t := by omega
        simp [Function.comp, hdiv, hmod, h, hn]
      · have hn : ¬ t < M * N := by omega
        simp [Function.comp, hdiv, hmod, hn, h]
    rw [List.countP_congr hsame]
    exact countP_range_not_lt T (M * N)
  · intro s
    have hT1 : T - 1 < T := by omega
    have hlen := make_tasks_getD_length M N T hT s hT1
    rw [hdiv, hmod, if_neg (by omega), Nat.zero_add] at hlen
    refine ⟨(make_tasks M N T s).getD (T - 1) [], ?_, List.length_eq_zero.mp hlen⟩
    have hmem : T - 1 < (make_tasks M N T s).length := by
      rw [make_tasks_length M N T hT s]; exact hT1
    rw [List.getD_eq_getElem?_getD, List.getElem?_eq_getElem hmem]
    exact List.getElem_mem _
  · intro α _ _ _ tid A B C M' K' N'
    rfl

/-- Witness for C7 at `M = N = 1`, `T = 3`: two of the three lists are empty
and an empty worker leaves `C` unchanged. -/
theorem C7_witness :
    ((make_tasks 1 1 3 Strategy.Rows).countP (fun l => l.isEmpty)) = 3 - 1 * 1 ∧
    worker 0 ([] : List CellTask) [(5 : ℚ)] [7] [9] 1 1 1 = [9] :=
  ⟨(C7_empty_list_tolerance 1 1 3 (by omega)).1 Strategy.Rows,
   (C7_empty_list_tolerance 1 1 3 (by omega)).2.2 ℚ 0 [5] [7] [9] 1 1 1⟩

/-! ### Claim C8 -/

/-- Counterexample to C8: the invocation `M = 0, K = 1, N = 1, T = 0` with a
valid strategy name and no flags is *not* rejected by `main`: argument
handling succeeds and the core is invoked with the non-positive dimension
`M = 0` passed through unchanged, `T` silently clamped to `1`. -/
theorem C8_counterexample :
    main_model 0 1 1 0 "rows" [] =
      some ⟨0, 1, 1, 1, Strategy.Rows, false, false⟩ := by
  decide

/-- C8 as amended: `main` rejects only malformed invocations (unknown
strategy name or unknown flag); whenever the strategy and flags parse, it
invokes the core with `M`, `K`, `N` passed through unvalidated — including
non-positive values — and with `T = max 1 Tin`, so a non-positive thread
count is clamped to `1` rather than rejected. -/
theorem C8_no_dimension_validation (M K N Tin : Int) (sarg : String)
    (flags : List String) (st : Strategy) (d r : Bool)
    (hs : parse_strategy sarg = some st)
    (hf : parse_flags flags false false = some (d, r)) :
    main_model M K N Tin sarg flags = some ⟨M, K, N, max 1 Tin, st, d, r⟩ ∧
    (1 : Int) ≤ max 1 Tin := by
  unfold main_model
  rw [hs, hf]
  exact ⟨rfl, le_max_left 1 Tin⟩

/-- Witness for the amended C8 at `M = -3, K = 0, N = -7, Tin = -5`. -/
theorem C8_witness :
    main_model (-3) 0 (-7) (-5) "rows" [] =
      some ⟨-3, 0, -7, max 1 (-5), Strategy.Rows, false, false⟩ ∧
    (1 : Int) ≤ max 1 (-5) :=
  C8_no_dimension_validation (-3) 0 (-7) (-5) "rows" [] Strategy.Rows false false
    (by decide) rfl

/-! ### Claim C9 -/

lemma worker_length {α : Type} [Add α] [Mul α] [Zero α] (tid : Nat)
    (tasks : List CellTask) (A B : List α) (M K N : Nat) :
    ∀ C : List α, (worker tid tasks A B C M K N).length = C.length := by
  induction tasks with
  | nil => intro C; rfl
  | cons t rest ih =>
    intro C
    show (worker tid rest A B _ M K N).length = _
    rw [ih, List.length_set]

lemma worker_getElem?_frame {α : Type} [Add α] [Mul α] [Zero α] (tid : Nat)
    (tasks : List CellTask) (A B : List α) (M K N p : Nat)
    (h : ∀ t ∈ tasks, t.1 * N + t.2 ≠ p) :
    ∀ C : List α, (worker tid tasks A B C M K N)[p]? = C[p]? := by
  induction tasks with
  | nil => intro C; rfl
  | cons t rest ih =>
    intro C
    show (worker tid rest A B
      (C.set (t.1 * N + t.2) (compute_element A B t.1 t.2 M K N tid)) M K N)[p]? = _
    rw [ih (fun x hx => h x (List.mem_cons_of_mem _ hx)), List.getElem?_set,
      if_neg (h t (List.mem_cons_self _ _))]

/-- C9: `worker` writes only the cells whose `(i, j)` pair appears in its
task list: any position `p` of `C` that is the linear index of no task keeps
its prior value, and the shape of `C` is unchanged.  `A` and `B` are read
only (in this pure embedding `worker` returns the new `C` and cannot touch
them). -/
theorem C9_worker_frame {α : Type} [Add α] [Mul α] [Zero α] (tid : Nat)
    (tasks : List CellTask) (A B C : List α) (M K N p : Nat)
    (h : ∀ t ∈ tasks, t.1 * N + t.2 ≠ p) :
    (worker tid tasks A B C M K N)[p]? = C[p]? ∧
    (worker tid tasks A B C M K N).length = C.length :=
  ⟨worker_getElem?_frame tid tasks A B M K N p h C,
    worker_length tid tasks A B M K N C⟩

/-- Witness for C9: the worker writing only cell `(0, 0)` leaves position 1
of `C` unchanged. -/
theorem C9_witness :
    (worker 0 [((0, 0) : CellTask)] [(2 : ℚ)] [3] [(4 : ℚ), 5] 1 1 1)[1]? =
      [(4 : ℚ), 5][1]? ∧
    (worker 0 [((0, 0) : CellTask)] [(2 : ℚ)] [3] [(4 : ℚ), 5] 1 1 1).length =
      [(4 : ℚ), 5].length :=
  C9_worker_frame 0 [((0, 0) : CellTask)] [(2 : ℚ)] [3] [(4 : ℚ), 5] 1 1 1 1
    (by decide)
